import Mathlib

/-!
Verification of the ESNIKeys / ECHOConfig builders of this repository
(`esnistuff/mk_esnikeys.c` and `apps/echo.c`).

Byte strings are modelled as `List Nat` (each entry one octet value); C strings
are modelled as the list of their non-NUL content bytes, the terminator being
the end of the list.  All arithmetic written `x >> 8 % 256` in the C source is
rendered as `x / 256 % 256` and so on.
-/

/-- Maximum number of addresses in an AddressSet, `MAX_ESNI_ADDRS` in
`mk_esnikeys.c` line 36. -/
def MAX_ESNI_ADDRS : Nat := 16

/-- C `strncmp` on two NUL-terminated strings modelled as their content bytes:
compares at most `n` characters, stopping at the first difference or at a
terminator (the end of a list).  Returns zero on equality of the compared
region, the signed difference of the first differing characters otherwise. -/
def strncmp : List Nat → List Nat → Nat → Int
  | _, _, 0 => 0
  | [], [], _ + 1 => 0
  | [], b :: _, _ + 1 => 0 - (b : Int)
  | a :: _, [], _ + 1 => (a : Int)
  | a :: as, b :: bs, n + 1 => if a = b then strncmp as bs n else (a : Int) - (b : Int)

/-- Boolean test that `a` is a starting segment of `b` (every byte of `a`
appears, in order, at the head of `b`). -/
def isStartOf : List Nat → List Nat → Bool
  | [], _ => true
  | _ :: _, [] => false
  | x :: xs, y :: ys => x = y && isStartOf xs ys

/-- Outcome of one `add2alist` call (`mk_esnikeys.c` lines 247-284): the C
function returns 0 after appending, 1 when the line is judged already present,
and calls `exit(1)` when the list is full. -/
inductive AddResult where
  | added (ips : List (List Nat))
  | present
  | tooMany
deriving DecidableEq

/-- The duplicate filter `add2alist` of `mk_esnikeys.c` lines 247-284: an empty
list accepts the line outright; otherwise the line is judged present when
`strncmp(ips[i], line, strlen(line))` is zero for some accepted entry, and the
16-entry limit is enforced only when the line is about to be appended. -/
def add2alist (ips : List (List Nat)) (line : List Nat) : AddResult :=
  if ips.length = 0 then .added [line]
  else if ips.any (fun ip => strncmp ip line line.length = 0) then .present
  else if ips.length = MAX_ESNI_ADDRS then .tooMany
  else .added (ips ++ [line])

/-- The address-reading loop of `mk_esnikeys.c` lines 414-424: feeds each line
to `add2alist` in order; `none` models the `exit(1)` taken when the list is
full. -/
def addAll : List (List Nat) → List (List Nat) → Option (List (List Nat))
  | acc, [] => some acc
  | acc, l :: ls =>
    match add2alist acc l with
    | .added ips => addAll ips ls
    | .present => addAll acc ls
    | .tooMany => none

/-- Trailing-dot canonicalisation of the cover name, `mk_esnikeys.c` line 390:
`cover_name[cnlen-1] = 0` overwrites the final dot in place with a NUL byte,
leaving the raw byte count unchanged. -/
def stripDot (name : List Nat) : List Nat :=
  if name.getLast? = some 46 then name.dropLast ++ [0] else name

/-- ESNIKeys buffer assembly, `mk_esnikeys.c` lines 648-691: version tag,
4 zero checksum bytes, the length-prefixed cover name for 0xff02 only (the
length captured before dot-stripping), the fixed X25519 key-share entry, the
fixed cipher-suite list, the padded length 0x0104, the two 8-byte validity
times with zero high words, and the extensions (a 2-byte zero terminator when
none were encoded). -/
def esniPlain (ekversion : Nat) (cover_name : List Nat) (public : List Nat)
    (nb na : Nat) (extvals : List Nat) : List Nat :=
  [ekversion / 256 % 256, ekversion % 256] ++
  [0, 0, 0, 0] ++
  (if ekversion = 0xff02 then
    [cover_name.length / 256 % 256, cover_name.length % 256] ++ stripDot cover_name
   else []) ++
  [0x00, 0x24, 0x00, 0x1d, 0x00, 0x20] ++ public.take 32 ++
  [0x00, 0x02, 0x13, 0x01] ++
  [0x01, 0x04] ++
  [0, 0, 0, 0, nb / 2 ^ 24 % 256, nb / 2 ^ 16 % 256, nb / 2 ^ 8 % 256, nb % 256] ++
  [0, 0, 0, 0, na / 2 ^ 24 % 256, na / 2 ^ 16 % 256, na / 2 ^ 8 % 256, na % 256] ++
  (if extvals = [] then [0, 0] else extvals)

/-- Checksum generator `esni_checksum_gen`, `mk_esnikeys.c` lines 166-199:
copy the buffer, zero the four bytes at offset 2, digest the copy and keep the
first four digest bytes.  The SHA-256 primitive lives in OpenSSL's libcrypto,
outside this repository's sources, so it is the parameter `H`. -/
def esni_checksum_gen (H : List Nat → List Nat) (buf : List Nat) : List Nat :=
  (H (buf.take 2 ++ [0, 0, 0, 0] ++ buf.drop 6)).take 4

/-- The finished ESNIKeys structure, `mk_esnikeys.c` lines 695-700: the
assembled buffer with the generated checksum spliced over bytes 2..5. -/
def esniFinal (H : List Nat → List Nat) (ekversion : Nat) (cover_name : List Nat)
    (public : List Nat) (nb na : Nat) (extvals : List Nat) : List Nat :=
  let bbuf := esniPlain ekversion cover_name public nb na extvals
  bbuf.take 2 ++ esni_checksum_gen H bbuf ++ bbuf.drop 6

/-- Name-field encoder as emitted at `mk_esnikeys.c` lines 654-658 and
`echo.c` lines 141-145: a 2-byte big-endian length then the name bytes. -/
def encodeNameField (name : List Nat) : List Nat :=
  [name.length / 256 % 256, name.length % 256] ++ name

/-- Modelled from the spec: decoder of the length-prefixed name field (the
repository sources contain no decoder; the spec describes the field as a
2-byte big-endian length followed by exactly that many name bytes). -/
def decodeNameField (buf : List Nat) : Option (List Nat) :=
  match buf with
  | hi :: lo :: rest =>
    if hi * 256 + lo ≤ rest.length then some (rest.take (hi * 256 + lo)) else none
  | _ => none

/-- Modelled from the spec: the HPKE KEM identifier for DHKEM(X25519)
referenced as `HPKE_KEM_ID_25519` in `echo.c` (defined in `crypto/hpke.h`,
which is outside the given sources); its registered value is 0x20. -/
def HPKE_KEM_ID_25519 : Nat := 0x20

/-- ECHOConfig buffer assembly, `echo.c` lines 133-177: version tag, checksum
space for the legacy versions only, the length-prefixed public name only when
it is non-empty, the fixed X25519 key-share entry, the nibble-split KEM
identifier, the fixed cipher-suite list, the padded length, and the 2-byte
zero extensions terminator (`extlen` is the literal 0 in this source). -/
def echoBbuf (ekversion : Nat) (public_name : Option (List Nat))
    (pub : List Nat) : List Nat :=
  let pnlen := match public_name with | none => 0 | some s => s.length
  let pname := match public_name with | none => [] | some s => s
  [ekversion / 256 % 256, ekversion % 256] ++
  (if ekversion = 0xff01 ∨ ekversion = 0xff02 then [0, 0, 0, 0] else []) ++
  (if 0 < pnlen ∧ (ekversion = 0xff02 ∨ ekversion = 0xff03) then
    [pnlen / 256 % 256, pnlen % 256] ++ pname
   else []) ++
  [0x00, 0x24, 0x00, 0x1d, 0x00, 0x20] ++ pub.take 32 ++
  [HPKE_KEM_ID_25519 / 16, HPKE_KEM_ID_25519 % 16] ++
  [0x00, 0x02, 0x13, 0x01] ++
  [0x01, 0x04] ++
  [0x00, 0x00]

/-- The fixed bytes an 0xff03 ECHOConfig buffer ends with after the KEM
identifier: cipher-suite list, padded length and empty extensions list. -/
def echoSuffix : List Nat :=
  [0x00, 0x02, 0x13, 0x01] ++ [0x01, 0x04] ++ [0x00, 0x00]

/-- The bytes an ESNIKeys buffer contains after the optional cover-name
field: key-share entry, cipher-suite list, padded length, validity window and
extensions. -/
def esniKeyTail (public : List Nat) (nb na : Nat) (extvals : List Nat) : List Nat :=
  [0x00, 0x24, 0x00, 0x1d, 0x00, 0x20] ++ public.take 32 ++
  [0x00, 0x02, 0x13, 0x01] ++
  [0x01, 0x04] ++
  [0, 0, 0, 0, nb / 2 ^ 24 % 256, nb / 2 ^ 16 % 256, nb / 2 ^ 8 % 256, nb % 256] ++
  [0, 0, 0, 0, na / 2 ^ 24 % 256, na / 2 ^ 16 % 256, na / 2 ^ 8 % 256, na % 256] ++
  (if extvals = [] then [0, 0] else extvals)

/-- Offset of the 2-byte KEM identifier inside an 0xff03 ECHOConfig buffer:
version tag (2), then the name field when a non-empty name was supplied
(2-byte length plus the name), then the 38-byte key-share entry. -/
def echoKemOff (public_name : Option (List Nat)) : Nat :=
  2 +
  (match public_name with
   | none => 0
   | some s => if 0 < s.length then 2 + s.length else 0) +
  38

/-- Modelled from the spec: the external Base64 alphabet used by OpenSSL's
`EVP_EncodeBlock` (A-Z, a-z, 0-9, '+', '/' as byte values). -/
def b64tab : List Nat :=
  (List.range 26).map (fun i => 65 + i) ++ (List.range 26).map (fun i => 97 + i) ++
  (List.range 10).map (fun i => 48 + i) ++ [43, 47]

/-- Byte value of the Base64 character with the given 6-bit index. -/
def b64c (n : Nat) : Nat := b64tab.getD n 0

/-- Modelled from the spec: OpenSSL's `EVP_EncodeBlock` Base64 encoder (an
external libcrypto primitive): standard padded Base64, no line breaks; 61 is
the pad character '='. -/
def b64encode : List Nat → List Nat
  | [] => []
  | [a] => [b64c (a / 4), b64c (a % 4 * 16), 61, 61]
  | [a, b] => [b64c (a / 4), b64c (a % 4 * 16 + b / 16), b64c (b % 16 * 4), 61]
  | a :: b :: c :: rest =>
    [b64c (a / 4), b64c (a % 4 * 16 + b / 16), b64c (b % 16 * 4 + c / 64), b64c (c % 64)] ++
    b64encode rest

/-- The `mk_echoconfig` function of `echo.c` lines 69-187 restricted to its
observable result: `none` for the rejected versions and for the
`b64len >= *echoconfig_len - 1` render failure (line 180), otherwise the
Base64 bytes followed by the terminating zero written at line 183.  `cap` is
the incoming `*echoconfig_len` destination capacity. -/
def mk_echoconfig (ekversion : Nat) (public_name : Option (List Nat))
    (pub : List Nat) (cap : Nat) : Option (List Nat) :=
  if ekversion = 0xff01 ∨ ekversion = 0xff02 then none
  else if ekversion = 0xff03 then
    let bbuf := echoBbuf ekversion public_name pub
    let b64 := b64encode bbuf
    if cap - 1 ≤ b64.length then none else some (b64 ++ [0])
  else none

/-- Decimal digit characters. -/
def decDigs : List Char := "0123456789".data

/-- Decimal digit character of a value below ten. -/
def decDig (d : Nat) : Char := decDigs.getD d '0'

/-- Fuelled decimal rendering (the fuel argument only bounds the recursion;
`natDec` supplies enough fuel for every input). -/
def natDecAux : Nat → Nat → List Char
  | 0, _ => []
  | fuel + 1, n =>
    if n < 10 then [decDig n] else natDecAux fuel (n / 10) ++ [decDig (n % 10)]

/-- Decimal rendering of a number as `printf` `%d`/`%ld` produce it. -/
def natDec (n : Nat) : List Char := natDecAux (n + 1) n

/-- Lowercase hexadecimal digit characters. -/
def hexDigs : List Char := "0123456789abcdef".data

/-- Two-character rendering of one byte as `printf` `%02x` produces it. -/
def hex2 (b : Nat) : List Char := [hexDigs.getD (b / 16 % 16) '0', hexDigs.getD (b % 16) '0']

/-- Header of the folded zone-fragment rendering, from the format string
`"%s. IN TYPE%d \\# %ld ("` at `mk_esnikeys.c` line 134. -/
def prrHeader (owner : List Char) (typecode blen : Nat) : List Char :=
  owner ++ ". IN TYPE".data ++ natDec typecode ++ " \\# ".data ++ natDec blen ++ " (".data

/-- Header of the unfolded zone-fragment rendering, from the format string at
`mk_esnikeys.c` line 145. -/
def prrHeaderU (owner : List Char) (typecode blen : Nat) : List Char :=
  owner ++ ". IN TYPE".data ++ natDec typecode ++ " \\# ".data ++ natDec blen ++ " ".data

/-- Body of the folded rendering, `mk_esnikeys.c` lines 135-141: before byte
`i`, a newline plus the indent when `i` is a multiple of 16, else a single
space when `i` is even; then the byte in `%02x` form. -/
def prrBody (indent : List Char) : Nat → List Nat → List Char
  | _, [] => []
  | i, b :: rest =>
    ((if i % 16 = 0 then '\n' :: indent else if i % 2 = 0 then [' '] else []) ++ hex2 b) ++
    prrBody indent (i + 1) rest

/-- Zone-fragment renderer `fp_esni_prr`, `mk_esnikeys.c` lines 114-153,
restricted to the characters written: folding applies when the buffer exceeds
16 bytes, and each folded line is indented by `strlen(owner_name)` padding
spaces plus the 18 literal spaces of the format string at line 137. -/
def fp_esni_prr (buf : List Nat) (typecode : Nat) (owner : List Char) : List Char :=
  if 16 < buf.length then
    prrHeader owner typecode buf.length ++
    prrBody (List.replicate owner.length ' ' ++ List.replicate 18 ' ') 0 buf ++
    " )\n".data
  else
    prrHeaderU owner typecode buf.length ++ (buf.map hex2).flatten ++ "\n".data

/-- Seventeen pairwise-distinct textual IPv4 addresses (byte values of
"10.0.0.10", "10.0.0.1", "10.0.0.2" .. "10.0.0.9", "10.0.0.11" ..
"10.0.0.17"); the second is a leading segment of the first. -/
def cexAddrs : List (List Nat) :=
  [[49, 48, 46, 48, 46, 48, 46, 49, 48],
   [49, 48, 46, 48, 46, 48, 46, 49],
   [49, 48, 46, 48, 46, 48, 46, 50],
   [49, 48, 46, 48, 46, 48, 46, 51],
   [49, 48, 46, 48, 46, 48, 46, 52],
   [49, 48, 46, 48, 46, 48, 46, 53],
   [49, 48, 46, 48, 46, 48, 46, 54],
   [49, 48, 46, 48, 46, 48, 46, 55],
   [49, 48, 46, 48, 46, 48, 46, 56],
   [49, 48, 46, 48, 46, 48, 46, 57],
   [49, 48, 46, 48, 46, 48, 46, 49, 49],
   [49, 48, 46, 48, 46, 48, 46, 49, 50],
   [49, 48, 46, 48, 46, 48, 46, 49, 51],
   [49, 48, 46, 48, 46, 48, 46, 49, 52],
   [49, 48, 46, 48, 46, 48, 46, 49, 53],
   [49, 48, 46, 48, 46, 48, 46, 49, 54],
   [49, 48, 46, 48, 46, 48, 46, 49, 55]]

/-- A concrete 32-byte public key value used by the witnesses. -/
def pubC : List Nat := List.replicate 32 1

/-- A concrete stand-in digest function used by the witnesses (any function
returning at least four bytes satisfies the digest hypotheses). -/
def Hc : List Nat → List Nat := fun _ => List.replicate 32 0

/-! ## Helper lemmas -/

/-- A list of length four is a four-element literal. -/
theorem list_length_four {α : Type} (l : List α) (h : l.length = 4) :
    ∃ a b c d, l = [a, b, c, d] := by
  rcases l with _ | ⟨a, _ | ⟨b, _ | ⟨c, _ | ⟨d, rest⟩⟩⟩⟩ <;> simp_all

/-! ## C1: ESNIKeys checksum round-trip -/

/-- Claim C1: for every ESNIKeys build, recomputing the checksum over the
emitted buffer with the four checksum bytes at offset 2 zeroed reproduces
exactly the stored checksum bytes.  The digest `H` abstracts the external
SHA-256 primitive; any digest returning at least four bytes satisfies the
property. -/
theorem esni_checksum_roundtrip
    (H : List Nat → List Nat) (hH : ∀ x, 4 ≤ (H x).length)
    (ekversion : Nat) (cover_name public : List Nat) (nb na : Nat) (extvals : List Nat)
    (_hv : ekversion = 0xff01 ∨ ekversion = 0xff02) :
    esni_checksum_gen H (esniFinal H ekversion cover_name public nb na extvals) =
      ((esniFinal H ekversion cover_name public nb na extvals).drop 2).take 4 := by
  have hlen4 : ∀ b : List Nat, (esni_checksum_gen H b).length = 4 := by
    intro b
    have := hH (b.take 2 ++ [0, 0, 0, 0] ++ b.drop 6)
    simp only [esni_checksum_gen, List.length_take]
    omega
  obtain ⟨rest, hrest⟩ :
      ∃ rest, esniPlain ekversion cover_name public nb na extvals =
        (ekversion / 256 % 256) :: (ekversion % 256) :: 0 :: 0 :: 0 :: 0 :: rest :=
    ⟨_, rfl⟩
  obtain ⟨c0, c1, c2, c3, hck⟩ :=
    list_length_four _ (hlen4 (esniPlain ekversion cover_name public nb na extvals))
  have hfin : esniFinal H ekversion cover_name public nb na extvals =
      (ekversion / 256 % 256) :: (ekversion % 256) :: c0 :: c1 :: c2 :: c3 :: rest := by
    simp only [esniFinal]
    rw [hck, hrest]
    rfl
  rw [hfin]
  rw [hrest] at hck
  have harg : esni_checksum_gen H
      ((ekversion / 256 % 256) :: (ekversion % 256) :: c0 :: c1 :: c2 :: c3 :: rest) =
      esni_checksum_gen H
      ((ekversion / 256 % 256) :: (ekversion % 256) :: 0 :: 0 :: 0 :: 0 :: rest) := rfl
  rw [harg, hck]
  rfl

/-- Concrete instance of the checksum round-trip, with a digest returning
32 bytes, version 0xff01 and a 32-byte key. -/
theorem esni_checksum_roundtrip_witness :
    esni_checksum_gen Hc (esniFinal Hc 0xff01 [] pubC 100 200 []) =
      ((esniFinal Hc 0xff01 [] pubC 100 200 []).drop 2).take 4 :=
  esni_checksum_roundtrip Hc (fun _ => by simp [Hc]) 0xff01 [] pubC 100 200 []
    (Or.inl rfl)

/-! ## C4: name field round-trip -/

/-- Claim C4: encoding a name of length at most 254 as the 2-byte-length-
prefixed field and decoding the field back, in the presence of any trailing
structure bytes, returns the original name. -/
theorem name_field_roundtrip (name rest : List Nat) (h : name.length ≤ 254) :
    decodeNameField (encodeNameField name ++ rest) = some name := by
  have h0 : name.length / 256 = 0 := Nat.div_eq_of_lt (by omega)
  have h1 : name.length % 256 = name.length := Nat.mod_eq_of_lt (by omega)
  simp only [encodeNameField, List.cons_append, List.nil_append, decodeNameField]
  rw [h0, h1]
  simp [List.take_left]

/-- Concrete instance of the name round-trip at a 3-byte name. -/
theorem name_field_roundtrip_witness :
    decodeNameField (encodeNameField [97, 98, 99] ++ [7, 7]) = some [97, 98, 99] :=
  name_field_roundtrip [97, 98, 99] [7, 7] (by norm_num)

/-! ## C10: trailing-dot cover name in 0xff02 builds -/

/-- Claim C10: when the 0xff02 cover name ends with a dot (byte 46), the
emitted length field encodes the original length including the dot, and the
copied name bytes end with a 0 byte in place of the dot. -/
theorem esni_trailing_dot
    (name public : List Nat) (nb na : Nat) (extvals : List Nat)
    (hdot : name.getLast? = some 46) (hlen : name.length ≤ 254) :
    ((esniPlain 0xff02 name public nb na extvals).drop 6).take 2 = [0, name.length] ∧
    ((esniPlain 0xff02 name public nb na extvals).drop 8).take name.length =
      name.dropLast ++ [0] ∧
    (name.dropLast ++ [0]).getLast? = some 0 := by
  have hne : name ≠ [] := by
    intro h
    rw [h] at hdot
    simp at hdot
  have hsd : stripDot name = name.dropLast ++ [0] := by simp [stripDot, hdot]
  have hsdlen : (stripDot name).length = name.length := by
    rw [hsd]
    have : 0 < name.length := List.length_pos.mpr hne
    simp
    omega
  have htail : esniPlain 0xff02 name public nb na extvals =
      [255, 2, 0, 0, 0, 0, name.length / 256 % 256, name.length % 256] ++
        (stripDot name ++ esniKeyTail public nb na extvals) := by
    simp [esniPlain, esniKeyTail]
  have e0 : name.length / 256 % 256 = 0 := by omega
  have e1 : name.length % 256 = name.length := by omega
  refine ⟨?_, ?_, ?_⟩
  · rw [htail]
    show [name.length / 256 % 256, name.length % 256] = [0, name.length]
    rw [e0, e1]
  · rw [htail]
    show (stripDot name ++ esniKeyTail public nb na extvals).take name.length =
      name.dropLast ++ [0]
    rw [← hsdlen, List.take_left, hsd]
  · exact List.getLast?_concat _

/-- Concrete instance of the trailing-dot behaviour at the 2-byte name
consisting of the letter a and a dot. -/
theorem esni_trailing_dot_witness :
    ((esniPlain 0xff02 [97, 46] pubC 100 200 []).drop 6).take 2 = [0, 2] ∧
    ((esniPlain 0xff02 [97, 46] pubC 100 200 []).drop 8).take 2 = [97, 0] ∧
    (([97, 46] : List Nat).dropLast ++ [0]).getLast? = some 0 :=
  esni_trailing_dot [97, 46] pubC 100 200 [] (by decide) (by norm_num)

/-! ## C5: determinism of the builders -/

/-- Counterexample to claim C5 as stated: two ESNIKeys builds with identical
version, name, key bytes and extension data, differing only in the moment the
build reads the clock (the not-before/not-after inputs), emit different
bytes. -/
theorem esni_time_dependence :
    esniFinal Hc 0xff01 [] pubC 100 200 [] ≠ esniFinal Hc 0xff01 [] pubC 300 400 [] := by
  decide

/-- Claim C5 amended: building twice with identical declared inputs and an
identical validity window (the clock-derived not-before/not-after values)
yields byte-identical ESNIKeys structures, and the 0xff03 ECHOConfig build is
a deterministic function of version, name and key bytes alone. -/
theorem build_deterministic
    (H H' : List Nat → List Nat) (v v' : Nat) (c c' p p' : List Nat)
    (nb nb' na na' : Nat) (e e' : List Nat) (pn pn' : Option (List Nat))
    (q q' : List Nat)
    (hH : H = H') (hv : v = v') (hc : c = c') (hp : p = p') (hnb : nb = nb')
    (hna : na = na') (he : e = e') (hpn : pn = pn') (hq : q = q') :
    esniFinal H v c p nb na e = esniFinal H' v' c' p' nb' na' e' ∧
    echoBbuf 0xff03 pn q = echoBbuf 0xff03 pn' q' := by
  subst hH hv hc hp hnb hna he hpn hq
  exact ⟨rfl, rfl⟩

/-- Concrete instance of build determinism at version 0xff02 inputs. -/
theorem build_deterministic_witness :
    esniFinal Hc 0xff02 [97] pubC 100 200 [] = esniFinal Hc 0xff02 [97] pubC 100 200 [] ∧
    echoBbuf 0xff03 (some [97]) pubC = echoBbuf 0xff03 (some [97]) pubC :=
  build_deterministic Hc Hc 0xff02 0xff02 [97] [97] pubC pubC 100 100 200 200 [] []
    (some [97]) (some [97]) pubC pubC rfl rfl rfl rfl rfl rfl rfl rfl rfl

/-! ## C9: KEM identifier bytes in 0xff03 builds -/

/-- Claim C9: the two bytes emitted immediately after the key-share entry of
an 0xff03 build are the base-16 nibble split of the KEM identifier, which for
identifier 0x20 gives bytes 2, 0 and differs from the big-endian 16-bit
encoding 0, 32. -/
theorem echo_kem_nibbles (public_name : Option (List Nat)) (pub : List Nat)
    (hpub : pub.length = 32) :
    ((echoBbuf 0xff03 public_name pub).drop (echoKemOff public_name)).take 2 =
      [HPKE_KEM_ID_25519 / 16, HPKE_KEM_ID_25519 % 16] ∧
    [HPKE_KEM_ID_25519 / 16, HPKE_KEM_ID_25519 % 16] = [2, 0] ∧
    [HPKE_KEM_ID_25519 / 2 ^ 8 % 256, HPKE_KEM_ID_25519 % 2 ^ 8] = [0, 32] ∧
    ([2, 0] : List Nat) ≠ [0, 32] := by
  have htk : pub.take 32 = pub := List.take_of_length_le (by omega)
  refine ⟨?_, by decide, by decide, by decide⟩
  cases public_name with
  | none =>
    have htl : echoBbuf 0xff03 none pub =
        ([255, 3, 0x00, 0x24, 0x00, 0x1d, 0x00, 0x20] ++ pub.take 32) ++
          (2 :: 0 :: echoSuffix) := by
      simp [echoBbuf, HPKE_KEM_ID_25519, echoSuffix]
    have hl : ([255, 3, 0x00, 0x24, 0x00, 0x1d, 0x00, 0x20] ++ pub.take 32).length =
        echoKemOff none := by
      simp [htk, hpub, echoKemOff]
    rw [htl, List.drop_left' hl]
    rfl
  | some s =>
    by_cases hp : 0 < s.length
    · have htl : echoBbuf 0xff03 (some s) pub =
          ([255, 3] ++ ([s.length / 256 % 256, s.length % 256] ++ s) ++
            ([0x00, 0x24, 0x00, 0x1d, 0x00, 0x20] ++ pub.take 32)) ++
            (2 :: 0 :: echoSuffix) := by
        simp [echoBbuf, HPKE_KEM_ID_25519, echoSuffix, hp]
      have hl : (([255, 3] ++ ([s.length / 256 % 256, s.length % 256] ++ s) ++
          ([0x00, 0x24, 0x00, 0x1d, 0x00, 0x20] ++ pub.take 32))).length =
          echoKemOff (some s) := by
        simp [htk, hpub, echoKemOff, hp]
        omega
      rw [htl, List.drop_left' hl]
      rfl
    · have htl : echoBbuf 0xff03 (some s) pub =
          ([255, 3, 0x00, 0x24, 0x00, 0x1d, 0x00, 0x20] ++ pub.take 32) ++
            (2 :: 0 :: echoSuffix) := by
        simp [echoBbuf, HPKE_KEM_ID_25519, echoSuffix, hp]
      have hl : ([255, 3, 0x00, 0x24, 0x00, 0x1d, 0x00, 0x20] ++ pub.take 32).length =
          echoKemOff (some s) := by
        simp [htk, hpub, echoKemOff, hp]
      rw [htl, List.drop_left' hl]
      rfl

/-- Concrete instance of the KEM identifier bytes with a 2-byte name. -/
theorem echo_kem_nibbles_witness :
    ((echoBbuf 0xff03 (some [97, 98]) pubC).drop (echoKemOff (some [97, 98]))).take 2 =
      [HPKE_KEM_ID_25519 / 16, HPKE_KEM_ID_25519 % 16] ∧
    [HPKE_KEM_ID_25519 / 16, HPKE_KEM_ID_25519 % 16] = [2, 0] ∧
    [HPKE_KEM_ID_25519 / 2 ^ 8 % 256, HPKE_KEM_ID_25519 % 2 ^ 8] = [0, 32] ∧
    ([2, 0] : List Nat) ≠ [0, 32] :=
  echo_kem_nibbles (some [97, 98]) pubC (by decide)

/-! ## C2: public-name field presence in 0xff03 builds -/

/-- Counterexample to claim C2 as stated: an 0xff03 build with an absent
public name emits no length-prefixed name field at all; the bytes at offset 2
are the start of the key-share entry (0x00 0x24), not the zero length prefix
an encoded empty name would put there, and the empty-name build is
byte-identical to the nameless one. -/
theorem echo_noname_counterexample :
    (echoBbuf 0xff03 none pubC).take 4 = [255, 3, 0x00, 0x24] ∧
    (echoBbuf 0xff03 none pubC).take 4 ≠ [255, 3, 0, 0] ∧
    echoBbuf 0xff03 (some []) pubC = echoBbuf 0xff03 none pubC ∧
    (echoBbuf 0xff03 none pubC).length = 50 := by
  decide

/-- Claim C2 amended: the 0xff03 build emits the length-prefixed public-name
field between the version tag and the key-share entry exactly when the
supplied name is non-empty (the field then decodes back to the name); with an
absent or empty name the field is omitted entirely and the key-share entry
starts at offset 2. -/
theorem echo_publicname_field (pn pub : List Nat) (hlen : 0 < pn.length)
    (h254 : pn.length ≤ 254) :
    decodeNameField ((echoBbuf 0xff03 (some pn) pub).drop 2) = some pn ∧
    ((echoBbuf 0xff03 none pub).drop 2).take 2 = [0x00, 0x24] ∧
    ((echoBbuf 0xff03 (some []) pub).drop 2).take 2 = [0x00, 0x24] := by
  refine ⟨?_, rfl, rfl⟩
  have hsh : echoBbuf 0xff03 (some pn) pub =
      [255, 3] ++ (([pn.length / 256 % 256, pn.length % 256] ++ pn) ++
        ([0x00, 0x24, 0x00, 0x1d, 0x00, 0x20] ++ pub.take 32 ++
          (2 :: 0 :: echoSuffix))) := by
    simp [echoBbuf, HPKE_KEM_ID_25519, echoSuffix, hlen]
  rw [hsh]
  show decodeNameField ((pn.length / 256 % 256) :: (pn.length % 256) ::
      (pn ++ ([0x00, 0x24, 0x00, 0x1d, 0x00, 0x20] ++ pub.take 32 ++
        (2 :: 0 :: echoSuffix)))) = some pn
  have e0 : pn.length / 256 % 256 = 0 := by omega
  have e1 : pn.length % 256 = pn.length := by omega
  simp only [decodeNameField, e0, e1]
  simp [List.take_left]

/-- Concrete instance of the amended name-field behaviour at a 1-byte name. -/
theorem echo_publicname_field_witness :
    decodeNameField ((echoBbuf 0xff03 (some [97]) pubC).drop 2) = some [97] ∧
    ((echoBbuf 0xff03 none pubC).drop 2).take 2 = [0x00, 0x24] ∧
    ((echoBbuf 0xff03 (some []) pubC).drop 2).take 2 = [0x00, 0x24] :=
  echo_publicname_field [97] pubC (by norm_num) (by norm_num)

/-! ## C7: Base64 render capacity check -/

/-- Counterexample to claim C7 as stated: at destination capacity 69 the
encoded length (68) plus the terminator fits exactly, yet the render fails,
because the source rejects whenever `b64len >= cap - 1`. -/
theorem echo_render_counterexample :
    mk_echoconfig 0xff03 none pubC 69 = none ∧
    (b64encode (echoBbuf 0xff03 none pubC)).length + 1 ≤ 69 := by
  decide

/-- Claim C7 amended: for a positive capacity, the Base64 rendering succeeds
(returning the encoding followed by one terminating zero byte) precisely when
the capacity is at least the encoded length plus two, and fails precisely
when the capacity is at most the encoded length plus one. -/
theorem echo_render_success_iff (public_name : Option (List Nat)) (pub : List Nat)
    (cap : Nat) (hcap : 1 ≤ cap) :
    (mk_echoconfig 0xff03 public_name pub cap =
        some (b64encode (echoBbuf 0xff03 public_name pub) ++ [0]) ↔
      (b64encode (echoBbuf 0xff03 public_name pub)).length + 2 ≤ cap) ∧
    (mk_echoconfig 0xff03 public_name pub cap = none ↔
      cap ≤ (b64encode (echoBbuf 0xff03 public_name pub)).length + 1) := by
  by_cases h : cap - 1 ≤ (b64encode (echoBbuf 0xff03 public_name pub)).length
  · simp [mk_echoconfig, h]
    omega
  · simp [mk_echoconfig, h]
    omega

/-- Concrete instance of the amended render condition at capacity 70. -/
theorem echo_render_success_iff_witness :
    (mk_echoconfig 0xff03 none pubC 70 =
        some (b64encode (echoBbuf 0xff03 none pubC) ++ [0]) ↔
      (b64encode (echoBbuf 0xff03 none pubC)).length + 2 ≤ 70) ∧
    (mk_echoconfig 0xff03 none pubC 70 = none ↔
      70 ≤ (b64encode (echoBbuf 0xff03 none pubC)).length + 1) :=
  echo_render_success_iff none pubC 70 (by norm_num)

/-! ## C3: duplicate detection in add2alist -/

/-- The `strncmp(ip, line, strlen(line))` test of `add2alist` is zero exactly
when `line` is a leading segment of `ip`, provided the line consists of
non-NUL bytes. -/
theorem strncmp_eq_zero_iff : ∀ (line ip : List Nat), (∀ c ∈ line, 0 < c) →
    (strncmp ip line line.length = 0 ↔ isStartOf line ip = true) := by
  intro line
  induction line with
  | nil =>
    intro ip h
    simp [strncmp, isStartOf]
  | cons b bs ih =>
    intro ip hline
    cases ip with
    | nil =>
      have hb : 0 < b := hline b (by simp)
      simp [strncmp, isStartOf]
      omega
    | cons a as =>
      by_cases hab : a = b
      · subst hab
        have h1 : strncmp (a :: as) (a :: bs) ((a :: bs : List Nat)).length =
            strncmp as bs bs.length := by
          show (if a = a then strncmp as bs bs.length else (a : Int) - a) =
            strncmp as bs bs.length
          rw [if_pos rfl]
        have h2 : isStartOf (a :: bs) (a :: as) = isStartOf bs as := by
          show (decide (a = a) && isStartOf bs as) = isStartOf bs as
          simp
        rw [h1, h2]
        exact ih as (fun c hc => hline c (by simp [hc]))
      · simp only [List.length_cons, strncmp, if_neg hab, isStartOf]
        constructor
        · intro hz
          exfalso
          omega
        · intro hz
          exfalso
          simp at hz
          exact hab hz.1.symm

/-- Counterexample to claim C3 as stated: the line "10.0.0.1" is judged a
duplicate of the already-accepted distinct address "10.0.0.10", because the
comparison only inspects `strlen(line)` characters. -/
theorem add2alist_exact_counterexample :
    add2alist [[49, 48, 46, 48, 46, 48, 46, 49, 48]] [49, 48, 46, 48, 46, 48, 46, 49] =
      .present ∧
    ([49, 48, 46, 48, 46, 48, 46, 49] : List Nat) ≠
      [49, 48, 46, 48, 46, 48, 46, 49, 48] := by
  decide

/-- Claim C3 amended: an address (of non-NUL bytes) is dropped as a duplicate
precisely when it is a leading segment of some already-accepted address;
exact duplicates are the special case of equal length, and a new address that
is a proper leading segment of an accepted one is also dropped. -/
theorem add2alist_present_iff (ips : List (List Nat)) (line : List Nat)
    (hline : ∀ c ∈ line, 0 < c) :
    add2alist ips line = .present ↔ ∃ ip ∈ ips, isStartOf line ip = true := by
  by_cases h0 : ips.length = 0
  · have hnil : ips = [] := List.length_eq_zero.mp h0
    subst hnil
    simp [add2alist]
  · by_cases hany : ips.any (fun ip => strncmp ip line line.length = 0) = true
    · simp only [add2alist, if_neg h0, if_pos hany]
      simp only [List.any_eq_true, decide_eq_true_eq] at hany
      obtain ⟨ip, hip, hz⟩ := hany
      simp only [true_iff]
      exact ⟨ip, hip, (strncmp_eq_zero_iff line ip hline).mp hz⟩
    · simp only [add2alist, if_neg h0, if_neg hany]
      constructor
      · intro hcontra
        by_cases h16 : ips.length = MAX_ESNI_ADDRS <;> simp [h16] at hcontra
      · intro hcontra
        exfalso
        obtain ⟨ip, hip, hs⟩ := hcontra
        exact hany (List.any_eq_true.mpr
          ⟨ip, hip, decide_eq_true ((strncmp_eq_zero_iff line ip hline).mpr hs)⟩)

/-- Concrete instance of the amended duplicate test: the 2-byte line is a
leading segment of the single accepted 3-byte entry and is dropped. -/
theorem add2alist_present_iff_witness :
    add2alist [[49, 48, 46]] [49, 48] = .present ↔
      ∃ ip ∈ [[49, 48, 46]], isStartOf [49, 48] ip = true :=
  add2alist_present_iff [[49, 48, 46]] [49, 48] (by decide)

/-! ## C6: overflow at seventeen addresses -/

/-- Counterexample to claim C6 as stated: seventeen pairwise-distinct address
strings for which the encoding does not fail and silently keeps sixteen
entries, because one input is judged a duplicate of a distinct earlier
address. -/
theorem addAll_17_counterexample :
    cexAddrs.length = 17 ∧ cexAddrs.Pairwise (fun a b => a ≠ b) ∧
    addAll [] cexAddrs ≠ none ∧ ((addAll [] cexAddrs).getD []).length = 16 := by
  decide

/-- Feeding the list more addresses than fit, none of which is judged a
duplicate, reaches the sixteen-entry limit and fails. -/
theorem addAll_overflow : ∀ (rest acc : List (List Nat)),
    acc.length ≤ 16 → 16 < acc.length + rest.length →
    (∀ l ∈ rest, ∀ c ∈ l, 0 < c) →
    (∀ l ∈ rest, ∀ ip ∈ acc, isStartOf l ip = false) →
    rest.Pairwise (fun a b => isStartOf b a = false) →
    addAll acc rest = none := by
  intro rest
  induction rest with
  | nil =>
    intro acc h1 h2 _ _ _
    simp at h2
    omega
  | cons l ls ih =>
    intro acc hacc hlen hpos hfresh hpair
    obtain ⟨hpairhd, hpairtl⟩ := List.pairwise_cons.mp hpair
    have hnp : acc.any (fun ip => strncmp ip l l.length = 0) = false := by
      rw [Bool.eq_false_iff]
      intro hany
      rw [List.any_eq_true] at hany
      obtain ⟨ip, hip, hz⟩ := hany
      have hz' : strncmp ip l l.length = 0 := of_decide_eq_true hz
      have hs := (strncmp_eq_zero_iff l ip (hpos l (by simp))).mp hz'
      have hf := hfresh l (by simp) ip hip
      rw [hf] at hs
      exact Bool.false_ne_true hs
    by_cases h0 : acc.length = 0
    · have hnil : acc = [] := List.length_eq_zero.mp h0
      subst hnil
      have hstep : add2alist [] l = .added [l] := by simp [add2alist]
      show addAll [] (l :: ls) = none
      rw [addAll, hstep]
      apply ih [l]
      · simp
      · simp at hlen ⊢
        omega
      · exact fun l' hl' => hpos l' (by simp [hl'])
      · intro l' hl' ip hip
        simp at hip
        subst hip
        exact hpairhd l' hl'
      · exact hpairtl
    · by_cases h16 : acc.length = MAX_ESNI_ADDRS
      · have hstep : add2alist acc l = .tooMany := by
          simp [add2alist, h0, hnp, h16, MAX_ESNI_ADDRS]
        show addAll acc (l :: ls) = none
        rw [addAll, hstep]
      · have hstep : add2alist acc l = .added (acc ++ [l]) := by
          simp [add2alist, h0, hnp, h16]
        show addAll acc (l :: ls) = none
        rw [addAll, hstep]
        apply ih (acc ++ [l])
        · simp [MAX_ESNI_ADDRS] at h16
          simp
          omega
        · simp at hlen ⊢
          omega
        · exact fun l' hl' => hpos l' (by simp [hl'])
        · intro l' hl' ip hip
          rcases List.mem_append.mp hip with h | h
          · exact hfresh l' (by simp [hl']) ip h
          · simp at h
            subst h
            exact hpairhd l' hl'
        · exact hpairtl

/-- Claim C6 amended: seventeen addresses of non-NUL bytes, no one of which
is a leading segment of another, overflow the sixteen-entry list and the
encoding fails. -/
theorem addAll_17_overflow (lines : List (List Nat))
    (h17 : lines.length = 17)
    (hpos : ∀ l ∈ lines, ∀ c ∈ l, 0 < c)
    (hpair : lines.Pairwise (fun a b => isStartOf b a = false)) :
    addAll [] lines = none :=
  addAll_overflow lines [] (by simp) (by simp; omega) hpos (by simp) hpair

/-- Concrete instance of the amended overflow behaviour: seventeen distinct
single-byte addresses fail. -/
theorem addAll_17_overflow_witness :
    addAll [] ((List.range 17).map (fun i => [49 + i])) = none :=
  addAll_17_overflow ((List.range 17).map (fun i => [49 + i])) (by decide)
    (by decide) (by decide)

/-! ## C8: indentation of the folded zone-fragment rendering -/

/-- A defaulted list lookup is an element of the list or the default. -/
theorem getD_mem_or {α : Type} (l : List α) (n : Nat) (d : α) :
    l.getD n d ∈ l ∨ l.getD n d = d := by
  induction l generalizing n with
  | nil => right; simp
  | cons a t ih =>
    cases n with
    | zero => left; simp
    | succ m =>
      rcases ih m with h | h
      · left
        rw [List.getD_cons_succ]
        exact List.mem_cons_of_mem _ h
      · right
        rw [List.getD_cons_succ]
        exact h

/-- Hexadecimal digit characters are neither newline nor space. -/
theorem hexD_ne (n : Nat) : hexDigs.getD n '0' ≠ '\n' ∧ hexDigs.getD n '0' ≠ ' ' := by
  rcases getD_mem_or hexDigs n '0' with h | h
  · constructor <;> intro he <;> rw [he] at h <;> revert h <;> decide
  · rw [h]
    constructor <;> decide

/-- Every character of the fuelled decimal rendering is a decimal digit. -/
theorem natDecAux_mem : ∀ (fuel n : Nat), ∀ c ∈ natDecAux fuel n, c ∈ decDigs := by
  intro fuel
  induction fuel with
  | zero =>
    intro n c hc
    simp [natDecAux] at hc
  | succ f ih =>
    intro n c hc
    rw [natDecAux] at hc
    by_cases h : n < 10
    · rw [if_pos h] at hc
      simp at hc
      subst hc
      show decDigs.getD n '0' ∈ decDigs
      rcases getD_mem_or decDigs n '0' with h' | h'
      · exact h'
      · rw [h']
        decide
    · rw [if_neg h] at hc
      rcases List.mem_append.mp hc with h' | h'
      · exact ih _ c h'
      · simp at h'
        subst h'
        show decDigs.getD (n % 10) '0' ∈ decDigs
        rcases getD_mem_or decDigs (n % 10) '0' with h'' | h''
        · exact h''
        · rw [h'']
          decide

/-- The decimal rendering of a number contains no newline. -/
theorem nl_not_mem_natDec (n : Nat) : '\n' ∉ natDec n := by
  intro h
  have := natDecAux_mem (n + 1) n '\n' h
  revert this
  decide

/-- The folded-rendering header contains no newline when the owner name
contains none. -/
theorem nl_not_mem_prrHeader (owner : List Char) (tc blen : Nat)
    (hown : '\n' ∉ owner) : '\n' ∉ prrHeader owner tc blen := by
  intro h
  simp only [prrHeader, List.mem_append] at h
  rcases h with ((((h | h) | h) | h) | h) | h
  · exact hown h
  · revert h; decide
  · exact nl_not_mem_natDec tc h
  · revert h; decide
  · exact nl_not_mem_natDec blen h
  · revert h; decide

/-- Splitting an appended pair at a newline: the newline lands either in the
left part or in the right part. -/
theorem append_nl_cases : ∀ (s t pre post : List Char), s ++ t = pre ++ '\n' :: post →
    (∃ p₁, s = pre ++ '\n' :: p₁ ∧ post = p₁ ++ t) ∨
    (∃ p₂, pre = s ++ p₂ ∧ t = p₂ ++ '\n' :: post) := by
  intro s
  induction s with
  | nil =>
    intro t pre post h
    right
    exact ⟨pre, by simp, by simpa using h⟩
  | cons a s' ih =>
    intro t pre post h
    cases pre with
    | nil =>
      simp only [List.cons_append, List.nil_append, List.cons.injEq] at h
      obtain ⟨ha, ht⟩ := h
      left
      exact ⟨s', by simp [ha], by simp [ht]⟩
    | cons p pre' =>
      simp only [List.cons_append, List.cons.injEq] at h
      obtain ⟨hp, ht⟩ := h
      rcases ih t pre' post ht with ⟨p₁, h1, h2⟩ | ⟨p₂, h1, h2⟩
      · left
        exact ⟨p₁, by simp [hp, h1], h2⟩
      · right
        exact ⟨p₂, by simp [hp, h1], h2⟩

/-- A newline inside an appended pair whose left part has none lies in the
right part. -/
theorem nl_split (A : List Char) (hA : '\n' ∉ A) (s pre post : List Char)
    (h : A ++ s = pre ++ '\n' :: post) :
    ∃ pre', pre = A ++ pre' ∧ s = pre' ++ '\n' :: post := by
  rcases append_nl_cases A s pre post h with ⟨p₁, h1, _⟩ | ⟨p₂, h1, h2⟩
  · exact absurd (by rw [h1]; simp) hA
  · exact ⟨p₂, h1, h2⟩

/-- The two-character hex rendering of a byte contains no newline. -/
theorem nl_not_mem_hex2 (b : Nat) : '\n' ∉ hex2 b := by
  intro hm
  rcases List.mem_cons.mp hm with h1 | h1
  · exact (hexD_ne _).1 h1.symm
  · rcases List.mem_cons.mp h1 with h2 | h2
    · exact (hexD_ne _).1 h2.symm
    · simp at h2

/-- Every newline the folded-rendering body emits is followed immediately by
the full indent and then a hex digit (neither newline nor space). -/
theorem prrBody_nl (indent : List Char) (hind : '\n' ∉ indent) :
    ∀ (buf : List Nat) (i : Nat) (pre post : List Char),
      prrBody indent i buf = pre ++ '\n' :: post →
      ∃ c rest, post = indent ++ c :: rest ∧ c ≠ '\n' ∧ c ≠ ' ' := by
  intro buf
  induction buf with
  | nil =>
    intro i pre post h
    simp [prrBody] at h
  | cons b bs ih =>
    intro i pre post h
    rw [prrBody] at h
    by_cases hi : i % 16 = 0
    · rw [if_pos hi] at h
      have h' : '\n' :: (indent ++ (hex2 b ++ prrBody indent (i + 1) bs)) =
          pre ++ '\n' :: post := by
        simpa [List.append_assoc] using h
      cases pre with
      | nil =>
        simp only [List.nil_append, List.cons.injEq] at h'
        obtain ⟨-, hpost⟩ := h'
        exact ⟨hexDigs.getD (b / 16 % 16) '0',
          hexDigs.getD (b % 16) '0' :: prrBody indent (i + 1) bs,
          hpost.symm, (hexD_ne _).1, (hexD_ne _).2⟩
      | cons p pre' =>
        simp only [List.cons_append, List.cons.injEq] at h'
        obtain ⟨-, hX⟩ := h'
        have hXa : (indent ++ hex2 b) ++ prrBody indent (i + 1) bs =
            pre' ++ '\n' :: post := by
          simpa [List.append_assoc] using hX
        have hA : '\n' ∉ indent ++ hex2 b := by
          intro hmem
          rcases List.mem_append.mp hmem with hm | hm
          · exact hind hm
          · exact nl_not_mem_hex2 b hm
        obtain ⟨pre'', -, hbody⟩ := nl_split _ hA _ _ _ hXa
        exact ih (i + 1) pre'' post hbody
    · rw [if_neg hi] at h
      have hA : '\n' ∉ (if i % 2 = 0 then [' '] else ([] : List Char)) ++ hex2 b := by
        intro hmem
        rcases List.mem_append.mp hmem with hm | hm
        · by_cases h2 : i % 2 = 0
          · rw [if_pos h2] at hm
            simp at hm
          · rw [if_neg h2] at hm
            simp at hm
        · exact nl_not_mem_hex2 b hm
      obtain ⟨pre'', -, hbody⟩ := nl_split _ hA _ _ _ h
      exact ih (i + 1) pre'' post hbody

/-- Claim C8 amended: in the folded zone-fragment rendering every newline is
either the final one or is followed by exactly the owner-name length plus 18
space characters (the padding plus the literal spaces of the format string)
and then a non-space hex digit. -/
theorem fp_esni_prr_indent (buf : List Nat) (tc : Nat) (owner : List Char)
    (hblen : 16 < buf.length) (hown : '\n' ∉ owner) :
    ∀ pre post, fp_esni_prr buf tc owner = pre ++ '\n' :: post →
      post = [] ∨
      ∃ c rest, post = List.replicate (owner.length + 18) ' ' ++ c :: rest ∧ c ≠ ' ' := by
  intro pre post h
  rw [fp_esni_prr, if_pos hblen] at h
  have hdata : " )\n".data = [' ', ')', '\n'] := rfl
  rw [hdata] at h
  have h' : prrHeader owner tc buf.length ++
      (prrBody (List.replicate owner.length ' ' ++ List.replicate 18 ' ') 0 buf ++
        [' ', ')', '\n']) = pre ++ '\n' :: post := by
    simpa [List.append_assoc] using h
  obtain ⟨pre1, -, h1⟩ :=
    nl_split _ (nl_not_mem_prrHeader owner tc buf.length hown) _ _ _ h'
  have hind : '\n' ∉ List.replicate owner.length ' ' ++ List.replicate 18 ' ' := by
    intro hmem
    rcases List.mem_append.mp hmem with hm | hm <;>
      exact absurd (List.eq_of_mem_replicate hm) (by decide)
  rcases append_nl_cases _ _ _ _ h1 with ⟨p₁, hb, hpost⟩ | ⟨p₂, -, hsuf⟩
  · obtain ⟨c, rest, hp₁, -, hcs⟩ := prrBody_nl _ hind buf 0 pre1 p₁ hb
    right
    refine ⟨c, rest ++ [' ', ')', '\n'], ?_, hcs⟩
    rw [hpost, hp₁, List.replicate_add]
    simp [List.append_assoc]
  · left
    rcases p₂ with _ | ⟨x, _ | ⟨y, _ | ⟨z, tl⟩⟩⟩
    · exfalso
      simp only [List.nil_append, List.cons.injEq] at hsuf
      exact absurd hsuf.1 (by decide)
    · exfalso
      simp only [List.cons_append, List.nil_append, List.cons.injEq] at hsuf
      exact absurd hsuf.2.1 (by decide)
    · simp only [List.cons_append, List.nil_append, List.cons.injEq] at hsuf
      exact hsuf.2.2.2.symm
    · exfalso
      simp only [List.cons_append, List.cons.injEq] at hsuf
      exact absurd hsuf.2.2.2.symm (by simp)

/-- Concrete instance of the amended indentation property: a 17-byte buffer
with a 2-character owner name, split at the first newline of the rendering. -/
theorem fp_esni_prr_indent_witness :
    (fp_esni_prr (List.replicate 17 5) 1 ['a', 'b']).drop 21 = [] ∨
    ∃ c rest, (fp_esni_prr (List.replicate 17 5) 1 ['a', 'b']).drop 21 =
      List.replicate ((['a', 'b'] : List Char).length + 18) ' ' ++ c :: rest ∧
      c ≠ ' ' :=
  fp_esni_prr_indent (List.replicate 17 5) 1 ['a', 'b'] (by decide) (by decide)
    ((fp_esni_prr (List.replicate 17 5) 1 ['a', 'b']).take 20)
    ((fp_esni_prr (List.replicate 17 5) 1 ['a', 'b']).drop 21) (by decide)

/-- Counterexample to claim C8 as stated: with the 1-character owner name a,
the character after the first newline of the folded rendering of a 17-byte
buffer is not one owner-name-width space followed by a non-space - the code
emits 18 further literal spaces. -/
theorem fp_esni_prr_indent_counterexample :
    ¬ (∀ pre post, fp_esni_prr (List.replicate 17 5) 100 ['a'] = pre ++ '\n' :: post →
        post = [] ∨
        ∃ c rest, post = List.replicate (['a'] : List Char).length ' ' ++ c :: rest ∧
          c ≠ ' ') := by
  intro hcl
  have h := hcl ((fp_esni_prr (List.replicate 17 5) 100 ['a']).take 21)
    ((fp_esni_prr (List.replicate 17 5) 100 ['a']).drop 22) (by decide)
  rcases h with h | ⟨c, rest, hp, hc⟩
  · exact absurd h (by decide)
  · have h2 : ((fp_esni_prr (List.replicate 17 5) 100 ['a']).drop 22).take 2 =
        [' ', ' '] := by decide
    rw [hp] at h2
    have h3 : ([' ', c] : List Char) = [' ', ' '] := h2
    have h4 : c = ' ' := by simpa using h3
    exact hc h4
